import Mathlib

/-!
Verification of the byescreen repository (aggreagated_analysis.py, screen.py).

Floats of the Python source are modelled as rationals (ℚ); `math.log` is an
abstract parameter `log : ℚ → ℚ` wherever scores are built (no claim below
depends on the concrete logarithm).  Fallible Python operations (list
indexing, numpy division by zero producing NaN) are modelled with `Option`.
-/

/-! ### aggreagated_analysis.py -/

/-- Python `min` on two rationals (kernel-computable form of `min`). -/
def pymin (a b : ℚ) : ℚ := if a ≤ b then a else b

/-- Python `max` on two rationals (kernel-computable form of `max`). -/
def pymax (a b : ℚ) : ℚ := if b ≤ a then a else b

theorem pymin_eq (a b : ℚ) : pymin a b = min a b := by
  unfold pymin
  by_cases h : a ≤ b
  · simp [h, min_eq_left h]
  · have h' : b ≤ a := (not_le.mp h).le
    simp [h, min_eq_right h']

theorem pymax_eq (a b : ℚ) : pymax a b = max a b := by
  unfold pymax
  by_cases h : b ≤ a
  · simp [h, max_eq_left h]
  · have h' : a ≤ b := (not_le.mp h).le
    simp [h, max_eq_right h']

/-- Embeds `get_overlap` (aggreagated_analysis.py, lines 27-35):
`max(0, min(a[1], b[1]) - max(a[0], b[0]))`. -/
def get_overlap (a b : ℚ × ℚ) : ℚ :=
  pymax 0 (pymin a.2 b.2 - pymax a.1 b.1)

/-- One feature-importance record, the dict built by `read_model`
(fields `name`, `interval`, `ratio` — here `ratioQ` — and `cnt`). -/
structure Feature where
  name : String
  interval : ℚ × ℚ
  ratioQ : ℚ
  cnt : ℕ
deriving DecidableEq, Repr

/-- Embeds the match condition of the inner loop of `merge_features`
(line 74): `val1["name"] == val2["name"] and bool(get_overlap(...))`.
Python truthiness of a float is `≠ 0`. -/
def featMatch (x y : Feature) : Bool :=
  x.name == y.name && get_overlap x.interval y.interval != 0

/-- Embeds the update of a matched entry (`merge_features`, lines 75-78). -/
def updateFeat (x y : Feature) : Feature :=
  { y with
    interval := (pymin x.interval.1 y.interval.1, pymax x.interval.2 y.interval.2)
    ratioQ := y.ratioQ + x.ratioQ
    cnt := y.cnt + 1 }

/-- Embeds the inner loop of `merge_features` over the running list
(lines 71-79): every entry matching `x` is updated in place, and the
`intersected` flag records whether any entry matched. -/
def merge_step (x : Feature) : List Feature → List Feature × Bool
  | [] => ([], false)
  | y :: rest =>
    let p := merge_step x rest
    if featMatch x y then (updateFeat x y :: p.1, true) else (y :: p.1, p.2)

/-- Embeds `merge_features` (aggreagated_analysis.py, lines 62-83): folds each
incoming record of `aux` into `features`; a record matching no entry is
appended. -/
def merge_features (features aux : List Feature) : List Feature :=
  aux.foldl (fun fs v =>
    let p := merge_step v fs
    if p.2 then p.1 else p.1 ++ [v]) features

/-! ### Claim C1: the overlap predicate versus "share at least one point" -/

/-- Counterexample to C1: the closed intervals `(0,1)` and `(1,2)` are valid
(`a0 ≤ a1`, `b0 ≤ b1`) and share the point `1`, yet `get_overlap` is `0`,
i.e. falsy under Python `bool`. -/
theorem get_overlap_endpoint_touch_false :
    ((0 : ℚ) ≤ 1 ∧ (1 : ℚ) ≤ 2) ∧
    (∃ x : ℚ, (0 ≤ x ∧ x ≤ 1) ∧ (1 ≤ x ∧ x ≤ 2)) ∧
    get_overlap (0, 1) (1, 2) = 0 := by
  refine ⟨by norm_num, ⟨1, by norm_num⟩, by with_unfolding_all decide⟩

/-- Claim C1, amended: `get_overlap`'s result is truthy iff
`max(a0,b0) < min(a1,b1)`, i.e. iff the two closed intervals share a
sub-interval of positive length.  Intervals touching only at an endpoint, and
zero-width intervals, always yield a falsy result. -/
theorem get_overlap_ne_zero_iff (a b : ℚ × ℚ) :
    get_overlap a b ≠ 0 ↔ max a.1 b.1 < min a.2 b.2 := by
  unfold get_overlap
  rw [pymax_eq, pymin_eq, pymax_eq]
  rcases le_or_lt (min a.2 b.2 - max a.1 b.1) 0 with h | h
  · rw [max_eq_left h]
    constructor
    · intro hne; exact absurd rfl hne
    · intro hlt; linarith
  · rw [max_eq_right h.le]
    constructor
    · intro _; linarith
    · intro _; linarith

/-! ### Claim C2: single-record merge semantics and scenario B -/

/-- The shape of the inner loop, proved once: updating every match and
reporting whether any entry matched. -/
theorem merge_step_eq (x : Feature) (fs : List Feature) :
    merge_step x fs =
      (fs.map fun y => if featMatch x y then updateFeat x y else y,
       fs.any fun y => featMatch x y) := by
  induction fs with
  | nil => rfl
  | cons y rest ih =>
    simp only [merge_step, ih, List.map_cons, List.any_cons]
    by_cases h : featMatch x y = true
    · simp [h]
    · simp [h, Bool.false_or]

theorem merge_features_nil_aux (fs : List Feature) : merge_features fs [] = fs := rfl

theorem merge_features_cons (fs : List Feature) (x : Feature) (aux : List Feature) :
    merge_features fs (x :: aux) = merge_features (merge_features fs [x]) aux := by
  simp [merge_features, List.foldl_cons]

theorem map_no_match (x : Feature) (fs : List Feature)
    (h : (fs.any fun y => featMatch x y) = false) :
    (fs.map fun y => if featMatch x y then updateFeat x y else y) = fs := by
  induction fs with
  | nil => rfl
  | cons y rest ih =>
    simp only [List.any_cons, Bool.or_eq_false_iff] at h
    simp [h.1, ih h.2]

theorem merge_features_single (fs : List Feature) (x : Feature) :
    merge_features fs [x] =
      if fs.any (fun y => featMatch x y) then
        fs.map fun y => if featMatch x y then updateFeat x y else y
      else fs ++ [x] := by
  show (let p := merge_step x fs; if p.2 then p.1 else p.1 ++ [x]) = _
  rw [merge_step_eq]
  by_cases h : (fs.any fun y => featMatch x y) = true
  · simp [h]
  · have h' : (fs.any fun y => featMatch x y) = false := by simpa using h
    simp [h', map_no_match x fs h']

/-- Claim C2: merging a single incoming record `x` (with support 1) updates
every matching entry — interval union, ratio added, support incremented,
without stopping at the first match — and appends `x` with support 1 when
nothing matched; and scenario B produces one entry `(1.0, 2.5)`, support 2,
average ratio `3.5`. -/
theorem merge_features_step_spec (fs : List Feature) (x : Feature)
    (hx : Feature.cnt x = 1) :
    (merge_features fs [x] =
      if fs.any (fun y => featMatch x y) then
        fs.map fun y => if featMatch x y then updateFeat x y else y
      else fs ++ [x]) ∧
    ((fs.any (fun y => featMatch x y)) = false →
      merge_features fs [x] = fs ++ [x] ∧ Feature.cnt x = 1) ∧
    (merge_features
        (merge_features [] [⟨"LogP", (1, 2), 3, 1⟩])
        [⟨"LogP", (3/2, 5/2), 4, 1⟩] =
      [⟨"LogP", (1, 5/2), 7, 2⟩] ∧
      ((7 : ℚ) / 2 = 7/2)) := by
  refine ⟨merge_features_single fs x, ?_, by with_unfolding_all decide, by norm_num⟩
  intro h
  exact ⟨by rw [merge_features_single, h]; simp, hx⟩

/-- Witness for C2 at a concrete input: the record has support 1, and the
merge both satisfies the step description and realizes scenario B. -/
theorem merge_features_step_spec_witness :
    merge_features [] [({ name := "LogP", interval := (1, 2), ratioQ := 3, cnt := 1 } : Feature)] =
      [] ++ [({ name := "LogP", interval := (1, 2), ratioQ := 3, cnt := 1 } : Feature)] :=
  ((merge_features_step_spec []
      { name := "LogP", interval := (1, 2), ratioQ := 3, cnt := 1 } rfl).2.1
    (by with_unfolding_all decide)).1

/-! ### Claim C10: un-consolidated overlapping entries of the same name -/

/-- Claim C10: a record overlapping two disjoint same-name entries widens and
counts both independently, leaving two distinct entries with the same name
whose (now widened) intervals overlap each other — they are never
consolidated. -/
theorem merge_features_overlapping_entries_exist :
    merge_features
        (merge_features [] [⟨"A", (0, 1), 1, 1⟩, ⟨"A", (2, 3), 1, 1⟩])
        [⟨"A", (1/2, 5/2), 1, 1⟩] =
      [⟨"A", (0, 5/2), 2, 2⟩, ⟨"A", (1/2, 3), 2, 2⟩] ∧
    (⟨"A", (0, 5/2), 2, 2⟩ : Feature) ≠ ⟨"A", (1/2, 3), 2, 2⟩ ∧
    Feature.name ⟨"A", (0, 5/2), 2, 2⟩ = Feature.name ⟨"A", (1/2, 3), 2, 2⟩ ∧
    get_overlap (0, 5/2) (1/2, 3) ≠ 0 := by
  with_unfolding_all decide

/-! ### Claim C4: support counts after merging the same list twice -/

/-- Counterexample to C4: a single model list whose two same-name entries
overlap each other.  The first merge into the empty set already consolidates
them into one entry with support 2, and re-merging the same list pushes the
support to 4 > 2. -/
theorem merge_twice_support_exceeds_two :
    (∀ x ∈ [(⟨"A", (0, 2), 1, 1⟩ : Feature), ⟨"A", (1, 3), 1, 1⟩], Feature.cnt x = 1) ∧
    merge_features
        (merge_features [] [⟨"A", (0, 2), 1, 1⟩, ⟨"A", (1, 3), 1, 1⟩])
        [⟨"A", (0, 2), 1, 1⟩, ⟨"A", (1, 3), 1, 1⟩] =
      [⟨"A", (0, 3), 4, 4⟩] ∧
    ¬ Feature.cnt (⟨"A", (0, 3), 4, 4⟩ : Feature) ≤ 2 := by
  with_unfolding_all decide

theorem get_overlap_comm (a b : ℚ × ℚ) : get_overlap a b = get_overlap b a := by
  simp only [get_overlap, pymin_eq, pymax_eq]
  rw [min_comm a.2 b.2, max_comm a.1 b.1]

theorem featMatch_eq_true_iff (x y : Feature) :
    featMatch x y = true ↔
      (Feature.name x = Feature.name y ∧ get_overlap x.interval y.interval ≠ 0) := by
  simp [featMatch]

theorem featMatch_comm (a b : Feature) : featMatch a b = featMatch b a := by
  rw [Bool.eq_iff_iff, featMatch_eq_true_iff, featMatch_eq_true_iff]
  constructor
  · rintro ⟨h1, h2⟩
    exact ⟨h1.symm, by rwa [get_overlap_comm]⟩
  · rintro ⟨h1, h2⟩
    exact ⟨h1.symm, by rwa [get_overlap_comm]⟩

theorem featMatch_congr (z : Feature) {y y' : Feature}
    (hn : Feature.name y' = Feature.name y) (hi : y'.interval = y.interval) :
    featMatch z y' = featMatch z y := by
  simp [featMatch, hn, hi]

theorem updateFeat_name (x y : Feature) : Feature.name (updateFeat x y) = Feature.name y := rfl

theorem updateFeat_cnt (x y : Feature) : Feature.cnt (updateFeat x y) = Feature.cnt y + 1 := rfl

theorem updateFeat_interval_self (x y : Feature) (h : x.interval = y.interval) :
    (updateFeat x y).interval = y.interval := by
  simp [updateFeat, h, pymin, pymax, Prod.ext_iff]

/-- Merging a batch that matches nothing (neither the running set nor,
pairwise, itself) just appends it. -/
theorem merge_features_no_match (aux : List Feature) :
    ∀ A, (∀ x ∈ aux, ∀ y ∈ A, featMatch x y = false) →
      List.Pairwise (fun a b => featMatch a b = false) aux →
      merge_features A aux = A ++ aux := by
  induction aux with
  | nil => intro A _ _; simp [merge_features]
  | cons x rest ih =>
    intro A h hp
    rw [merge_features_cons, merge_features_single]
    have hx : (A.any fun y => featMatch x y) = false := by
      rw [List.any_eq_false]
      intro y hy
      simp [h x (List.mem_cons_self x rest) y hy]
    rw [hx]
    simp only [Bool.false_eq_true, if_false]
    have h' : ∀ x' ∈ rest, ∀ y ∈ A ++ [x], featMatch x' y = false := by
      intro x' hx' y hy
      rcases List.mem_append.mp hy with hyA | hyx
      · exact h x' (List.mem_cons_of_mem x hx') y hyA
      · have : y = x := by simpa using hyx
        subst this
        have := (List.pairwise_cons.mp hp).1 x' hx'
        rwa [featMatch_comm]
    rw [ih (A ++ [x]) h' (List.pairwise_cons.mp hp).2]
    simp

/-- In a pairwise non-matching list, at most one element matches any given
member. -/
theorem countP_featMatch_le_one (L : List Feature)
    (hp : List.Pairwise (fun a b => featMatch a b = false) L)
    (y : Feature) (hy : y ∈ L) :
    (L.countP fun x => featMatch x y) ≤ 1 := by
  induction L with
  | nil => simp
  | cons a t ih =>
    obtain ⟨ha, ht⟩ := List.pairwise_cons.mp hp
    rw [List.countP_cons]
    rcases List.mem_cons.mp hy with rfl | hyt
    · have h0 : (t.countP fun x => featMatch x y) = 0 := by
        rw [List.countP_eq_zero]
        intro z hz
        have := ha z hz
        rw [featMatch_comm] at this
        simp [this]
      rw [h0]
      split <;> omega
    · have hfa : featMatch a y = false := ha y hyt
      have := ih ht hyt
      simp [hfa]
      omega

/-- In a pairwise non-matching list, a match between two members forces them
to be the same record. -/
theorem featMatch_mem_eq (L : List Feature)
    (hp : List.Pairwise (fun a b => featMatch a b = false) L)
    {x y : Feature} (hx : x ∈ L) (hy : y ∈ L) (hm : featMatch x y = true) :
    x = y := by
  by_contra hne
  have hsymm : Symmetric (fun a b : Feature => featMatch a b = false) := by
    intro a b h
    rw [featMatch_comm]
    exact h
  have := List.Pairwise.forall hsymm hp hx hy hne
  rw [this] at hm
  cases hm

/-- Support-count invariant of the merge fold: if every entry's support plus
the number of still-pending matches is at most 2, pending records are
pairwise non-matching with intervals equal to whatever they match, then every
entry of the result has support at most 2. -/
theorem merge_cnt_invariant :
    ∀ (aux A : List Feature),
      (∀ y ∈ A, Feature.cnt y + aux.countP (fun x => featMatch x y) ≤ 2) →
      (∀ y ∈ A, ∀ x ∈ aux, featMatch x y = true → x.interval = y.interval) →
      List.Pairwise (fun a b => featMatch a b = false) aux →
      (∀ x ∈ aux, Feature.cnt x ≤ 1) →
      ∀ y ∈ merge_features A aux, Feature.cnt y ≤ 2 := by
  intro aux
  induction aux with
  | nil =>
    intro A h1 _ _ _ y hy
    have := h1 y (by simpa [merge_features] using hy)
    simpa using this
  | cons x rest ih =>
    intro A h1 h2 hp h4
    rw [merge_features_cons, merge_features_single]
    obtain ⟨hpx, hpr⟩ := List.pairwise_cons.mp hp
    by_cases hany : (A.any fun y => featMatch x y) = true
    · rw [hany]
      simp only [if_true]
      apply ih (A.map fun y => if featMatch x y then updateFeat x y else y)
      · intro y' hy'
        obtain ⟨y, hy, rfl⟩ := List.mem_map.mp hy'
        have hcnt := h1 y hy
        rw [List.countP_cons] at hcnt
        by_cases hm : featMatch x y = true
        · rw [if_pos hm]
          have hxi : x.interval = y.interval :=
            h2 y hy x (List.mem_cons_self x rest) hm
          have hcp : (rest.countP fun z => featMatch z (updateFeat x y)) =
              rest.countP fun z => featMatch z y := by
            apply List.countP_congr
            intro z _
            rw [featMatch_congr z (updateFeat_name x y) (updateFeat_interval_self x y hxi)]
          rw [hcp, updateFeat_cnt]
          rw [if_pos hm] at hcnt
          omega
        · rw [if_neg hm]
          rw [if_neg hm] at hcnt
          omega
      · intro y' hy' z hz hmz
        obtain ⟨y, hy, rfl⟩ := List.mem_map.mp hy'
        by_cases hm : featMatch x y = true
        · rw [if_pos hm] at hmz ⊢
          have hxi : x.interval = y.interval :=
            h2 y hy x (List.mem_cons_self x rest) hm
          rw [featMatch_congr z (updateFeat_name x y) (updateFeat_interval_self x y hxi)] at hmz
          rw [updateFeat_interval_self x y hxi]
          exact h2 y hy z (List.mem_cons_of_mem x hz) hmz
        · rw [if_neg hm] at hmz ⊢
          exact h2 y hy z (List.mem_cons_of_mem x hz) hmz
      · exact hpr
      · intro z hz
        exact h4 z (List.mem_cons_of_mem x hz)
    · have hany' : (A.any fun y => featMatch x y) = false := by
        simpa using hany
      rw [hany']
      simp only [Bool.false_eq_true, if_false]
      apply ih (A ++ [x])
      · intro y hy
        rcases List.mem_append.mp hy with hyA | hyx
        · have hcnt := h1 y hyA
          rw [List.countP_cons] at hcnt
          split at hcnt <;> omega
        · have : y = x := by simpa using hyx
          subst this
          have h0 : (rest.countP fun z => featMatch z y) = 0 := by
            rw [List.countP_eq_zero]
            intro z hz
            have := hpx z hz
            rw [featMatch_comm] at this
            simp [this]
          have := h4 y (List.mem_cons_self y rest)
          omega
      · intro y hy z hz hmz
        rcases List.mem_append.mp hy with hyA | hyx
        · exact h2 y hyA z (List.mem_cons_of_mem x hz) hmz
        · have : y = x := by simpa using hyx
          subst this
          have := hpx z hz
          rw [featMatch_comm] at this
          rw [this] at hmz
          cases hmz
      · exact hpr
      · intro z hz
        exact h4 z (List.mem_cons_of_mem x hz)

/-- Claim C4, amended: the double-merge support bound holds for lists whose
same-name entries are pairwise non-overlapping (the counterexample above
shows it fails otherwise): merging such a list into the empty set and then
merging the same list again leaves every support count at most 2. -/
theorem merge_twice_support_le_two (L : List Feature)
    (hp : List.Pairwise (fun a b => featMatch a b = false) L)
    (hc : ∀ x ∈ L, Feature.cnt x = 1) :
    ∀ y ∈ merge_features (merge_features [] L) L, Feature.cnt y ≤ 2 := by
  have h0 : merge_features [] L = L := by
    have := merge_features_no_match L [] (by intro x _ y hy; cases hy) hp
    simpa using this
  rw [h0]
  apply merge_cnt_invariant L L
  · intro y hy
    have := countP_featMatch_le_one L hp y hy
    have := hc y hy
    omega
  · intro y hy x hx hm
    rw [featMatch_mem_eq L hp hx hy hm]
  · exact hp
  · intro x hx
    exact (hc x hx).le

/-- Witness for the amended C4: two disjoint same-name records, each merged
twice, end with support exactly 2 ≤ 2. -/
theorem merge_twice_support_le_two_witness :
    Feature.cnt (⟨"A", (0, 1), 10, 2⟩ : Feature) ≤ 2 :=
  merge_twice_support_le_two
    [⟨"A", (0, 1), 5, 1⟩, ⟨"A", (2, 3), 4, 1⟩]
    (by with_unfolding_all decide)
    (by with_unfolding_all decide)
    ⟨"A", (0, 1), 10, 2⟩
    (by with_unfolding_all decide)

/-! ### Claim C6: report grouping of `analyze_models` (lines 98-114) -/

/-- One printed report line (line 109): `name(lo;hi): ratio/cnt` — the
displayed value is the summed ratio divided by the support count. -/
def lineOf (v : Feature) : String × ℚ × ℚ × ℚ :=
  (Feature.name v, v.interval.1, v.interval.2, Feature.ratioQ v / (Feature.cnt v : ℚ))

/-- The distinct support counts of `features_factors`, iterated with
`sorted(features_factors, reverse=True)` (line 106). -/
def supportKeys (features : List Feature) : List ℕ :=
  List.insertionSort (fun a b => b ≤ a) ((features.map Feature.cnt).dedup)

/-- One group of `features_factors[key]` (lines 99-103), printed after
`sorted(..., key=lambda x: x["ratio"], reverse=True)` (line 108). -/
def groupFor (features : List Feature) (k : ℕ) : List Feature :=
  List.insertionSort (fun a b => Feature.ratioQ b ≤ Feature.ratioQ a)
    (features.filter fun v => Feature.cnt v == k)

/-- The grouped report structure of `analyze_models` (lines 98-111). -/
def reportGroups (features : List Feature) : List (ℕ × List Feature) :=
  (supportKeys features).map fun k => (k, groupFor features k)

/-- The printed report of `analyze_models`: the groups, each entry rendered
through `lineOf`. -/
def analyze_models_report (features : List Feature) :
    List (ℕ × List (String × ℚ × ℚ × ℚ)) :=
  (reportGroups features).map fun p => (p.1, p.2.map lineOf)

instance : IsTotal ℕ fun a b => b ≤ a := ⟨fun a b => le_total b a⟩

instance : IsTrans ℕ fun a b => b ≤ a := ⟨fun _ _ _ h1 h2 => le_trans h2 h1⟩

instance : IsTotal Feature fun a b => Feature.ratioQ b ≤ Feature.ratioQ a :=
  ⟨fun a b => le_total (Feature.ratioQ b) (Feature.ratioQ a)⟩

instance : IsTrans Feature fun a b => Feature.ratioQ b ≤ Feature.ratioQ a :=
  ⟨fun _ _ _ h1 h2 => le_trans h2 h1⟩

theorem pairwise_and_helper {α : Type} {R S : α → α → Prop} :
    ∀ {l : List α}, List.Pairwise R l → List.Pairwise S l →
      List.Pairwise (fun a b => R a b ∧ S a b) l := by
  intro l
  induction l with
  | nil => intro _ _; exact List.Pairwise.nil
  | cons a t ih =>
    intro h1 h2
    obtain ⟨h1a, h1t⟩ := List.pairwise_cons.mp h1
    obtain ⟨h2a, h2t⟩ := List.pairwise_cons.mp h2
    exact List.Pairwise.cons (fun b hb => ⟨h1a b hb, h2a b hb⟩) (ih h1t h2t)

theorem reportGroups_keys (features : List Feature) :
    (reportGroups features).map Prod.fst = supportKeys features := by
  rw [reportGroups, List.map_map]
  exact List.map_id _

/-- Claim C6: the report groups entries by support in strictly descending
order, every feature's support appears as a group key, each group is exactly
the entries with that support sorted by the raw summed ratio (descending,
not the average), and the displayed value on each line is `ratio / support`. -/
theorem report_grouping_spec (features : List Feature) :
    List.Pairwise (fun a b => b < a) ((reportGroups features).map Prod.fst) ∧
    (∀ v ∈ features, Feature.cnt v ∈ (reportGroups features).map Prod.fst) ∧
    (∀ k g, (k, g) ∈ reportGroups features →
      g.Perm (features.filter fun v => Feature.cnt v == k) ∧
      List.Pairwise (fun a b => Feature.ratioQ b ≤ Feature.ratioQ a) g ∧
      ∀ v ∈ g, Feature.cnt v = k) ∧
    analyze_models_report features =
      (reportGroups features).map (fun p => (p.1, p.2.map lineOf)) ∧
    ∀ v : Feature, lineOf v =
      (Feature.name v, v.interval.1, v.interval.2,
        Feature.ratioQ v / (Feature.cnt v : ℚ)) := by
  refine ⟨?_, ?_, ?_, rfl, fun v => rfl⟩
  · rw [reportGroups_keys]
    have hs : List.Pairwise (fun a b : ℕ => b ≤ a) (supportKeys features) :=
      List.sorted_insertionSort _ _
    have hn : (supportKeys features).Nodup :=
      (List.perm_insertionSort _ _).symm.nodup (List.nodup_dedup _)
    exact (pairwise_and_helper hs hn).imp fun h => lt_of_le_of_ne h.1 (Ne.symm h.2)
  · intro v hv
    rw [reportGroups_keys]
    apply (List.perm_insertionSort _ _).mem_iff.mpr
    rw [List.mem_dedup]
    exact List.mem_map_of_mem Feature.cnt hv
  · intro k g hkg
    obtain ⟨k', hk', heq⟩ := List.mem_map.mp hkg
    obtain ⟨rfl, rfl⟩ : k' = k ∧ groupFor features k' = g := by
      constructor
      · exact congrArg Prod.fst heq
      · exact congrArg Prod.snd heq
    refine ⟨List.perm_insertionSort _ _, List.sorted_insertionSort _ _, ?_⟩
    intro v hv
    have hvf : v ∈ features.filter fun v => Feature.cnt v == k' :=
      (List.perm_insertionSort _ _).subset hv
    have := (List.mem_filter.mp hvf).2
    exact beq_iff_eq.mp this

/-- Witness for C6 at a concrete input: the support-1 group of a two-entry
set is exactly the filter of the support-1 entries. -/
theorem report_grouping_spec_witness :
    ([⟨"A", (0, 1), 3, 1⟩] : List Feature).Perm
      (([⟨"A", (0, 1), 3, 1⟩, ⟨"B", (0, 2), 5, 2⟩] : List Feature).filter
        fun v => Feature.cnt v == 1) :=
  ((report_grouping_spec [⟨"A", (0, 1), 3, 1⟩, ⟨"B", (0, 2), 5, 2⟩]).2.2.1
    1 [⟨"A", (0, 1), 3, 1⟩] (by with_unfolding_all decide)).1

/-! ### screen.py: fragment scoring -/

/-- Python list indexing `l[i]`: non-negative indices are direct, negative
indices count from the end, anything else raises (modelled as `none`). -/
def pyGet {α : Type} (l : List α) (i : ℤ) : Option α :=
  if 0 ≤ i ∧ i < (l.length : ℤ) then l.get? i.toNat
  else if -(l.length : ℤ) ≤ i ∧ i < 0 then l.get? (i + l.length).toNat
  else none

/-- Embeds the bin-index computation of `score_feature_vector`
(screen.py, lines 27-28): `fv = int(math.floor(feature_value * cnt_bins))`
followed by the clamp `if fv == cnt_bins: fv -= 1`. -/
def get_bin (v : ℚ) (cnt_bins : ℕ) : ℤ :=
  let fv := ⌊v * (cnt_bins : ℚ)⌋
  if fv = (cnt_bins : ℤ) then fv - 1 else fv

/-- The `model["probabilities"]` record consumed by `score_feature_vector`. -/
structure Probs where
  feature_value_in_actives : List (List ℚ)
  feature_value_in_inactives : List (List ℚ)
  active : ℚ
  inactive : ℚ

/-- The loop of `score_feature_vector` (screen.py, lines 24-33), indexing the
probability tables by feature position `ix` and bin `get_bin v cnt_bins`,
then adding the prior log-odds.  `lg` abstracts `math.log`; a failing table
lookup (a Python IndexError) is `none`.  Zero or negative probabilities would
make Python's `log`/division raise; the model invariant (§3 of the spec,
probabilities in (0,1]) rules them out, and no claim below depends on them. -/
def scoreLoop (lg : ℚ → ℚ) (probs : Probs) (cnt_bins : ℕ) :
    ℕ → ℚ → List ℚ → Option ℚ
  | _, score, [] => some (score + lg (probs.active / probs.inactive))
  | ix, score, v :: rest =>
    match pyGet probs.feature_value_in_actives (ix : ℤ),
        pyGet probs.feature_value_in_inactives (ix : ℤ) with
    | some rowA, some rowI =>
      match pyGet rowA (get_bin v cnt_bins), pyGet rowI (get_bin v cnt_bins) with
      | some p1, some p2 =>
        scoreLoop lg probs cnt_bins (ix + 1) (score + lg (p1 / p2)) rest
      | _, _ => none
    | _, _ => none

/-- Embeds `score_feature_vector` (screen.py, lines 23-33). -/
def score_feature_vector (lg : ℚ → ℚ) (feature_vector : List ℚ) (probs : Probs)
    (cnt_bins : ℕ) : Option ℚ :=
  scoreLoop lg probs cnt_bins 0 0 feature_vector

/-! ### Claim C7: bin clamp at the domain boundaries -/

/-- Claim C7: inside fragment scoring, the bin map sends 1.0 to the last bin
`cnt_bins - 1` (the clamp firing exactly when `floor(v * cnt_bins)` equals
`cnt_bins`) and sends 0.0 to bin 0, for every `cnt_bins ≥ 1`. -/
theorem get_bin_clamp_spec (cnt_bins : ℕ) (v : ℚ) (h : 1 ≤ cnt_bins) :
    get_bin 1 cnt_bins = (cnt_bins : ℤ) - 1 ∧
    get_bin 0 cnt_bins = 0 ∧
    (⌊v * (cnt_bins : ℚ)⌋ = (cnt_bins : ℤ) → get_bin v cnt_bins = (cnt_bins : ℤ) - 1) ∧
    (⌊v * (cnt_bins : ℚ)⌋ ≠ (cnt_bins : ℤ) → get_bin v cnt_bins = ⌊v * (cnt_bins : ℚ)⌋) := by
  refine ⟨?_, ?_, ?_, ?_⟩
  · unfold get_bin
    rw [one_mul, Int.floor_natCast]
    simp
  · unfold get_bin
    rw [zero_mul, Int.floor_zero]
    rw [if_neg (by omega)]
  · intro hf
    unfold get_bin
    rw [if_pos hf, hf]
  · intro hf
    unfold get_bin
    rw [if_neg hf]

/-- Witness for C7 with two bins. -/
theorem get_bin_clamp_spec_witness :
    get_bin 1 2 = (2 : ℤ) - 1 ∧ get_bin 0 2 = 0 :=
  ⟨(get_bin_clamp_spec 2 0 (by norm_num)).1, (get_bin_clamp_spec 2 0 (by norm_num)).2.1⟩

/-! ### Claim C8: no domain validation in fragment scoring -/

theorem get?_isSome_iff {α : Type} (l : List α) (n : ℕ) :
    (l.get? n).isSome = true ↔ n < l.length := by
  rw [Option.isSome_iff_ne_none, Ne, List.get?_eq_none]
  omega

theorem pyGet_isSome_iff {α : Type} (l : List α) (i : ℤ) :
    (pyGet l i).isSome = true ↔ (-(l.length : ℤ) ≤ i ∧ i < (l.length : ℤ)) := by
  unfold pyGet
  by_cases h1 : 0 ≤ i ∧ i < (l.length : ℤ)
  · rw [if_pos h1, get?_isSome_iff]
    constructor
    · intro _
      exact ⟨by omega, h1.2⟩
    · intro _
      omega
  · rw [if_neg h1]
    by_cases h2 : -(l.length : ℤ) ≤ i ∧ i < 0
    · rw [if_pos h2, get?_isSome_iff]
      constructor
      · intro _
        exact ⟨h2.1, by omega⟩
      · intro _
        omega
    · rw [if_neg h2]
      simp only [Option.isSome_none, Bool.false_eq_true, false_iff]
      omega

theorem pyGet_mem {α : Type} {l : List α} {i : ℤ} {a : α}
    (h : pyGet l i = some a) : a ∈ l := by
  unfold pyGet at h
  split at h
  · exact List.get?_mem h
  · split at h
    · exact List.get?_mem h
    · cases h

/-- Range of the computed bin index: after the clamp, it is a valid Python
index into a row of length `cnt` iff the raw floor lies in `[-cnt, cnt]`. -/
theorem get_bin_range_iff (v : ℚ) (cnt : ℕ) (hcnt : 1 ≤ cnt) :
    (-(cnt : ℤ) ≤ get_bin v cnt ∧ get_bin v cnt < (cnt : ℤ)) ↔
      (-(cnt : ℤ) ≤ ⌊v * (cnt : ℚ)⌋ ∧ ⌊v * (cnt : ℚ)⌋ ≤ (cnt : ℤ)) := by
  unfold get_bin
  by_cases hf : ⌊v * (cnt : ℚ)⌋ = (cnt : ℤ)
  · rw [if_pos hf, hf]
    omega
  · rw [if_neg hf]
    omega

theorem scoreLoop_isSome_iff (lg : ℚ → ℚ) (probs : Probs) (cnt : ℕ)
    (hA : ∀ row ∈ probs.feature_value_in_actives, row.length = cnt)
    (hI : ∀ row ∈ probs.feature_value_in_inactives, row.length = cnt)
    (hcnt : 1 ≤ cnt) :
    ∀ (v : List ℚ) (ix : ℕ) (score : ℚ),
      ix + v.length ≤ probs.feature_value_in_actives.length →
      ix + v.length ≤ probs.feature_value_in_inactives.length →
      ((scoreLoop lg probs cnt ix score v).isSome = true ↔
        ∀ x ∈ v, -(cnt : ℤ) ≤ ⌊x * (cnt : ℚ)⌋ ∧ ⌊x * (cnt : ℚ)⌋ ≤ (cnt : ℤ)) := by
  intro v
  induction v with
  | nil =>
    intro ix score _ _
    simp [scoreLoop]
  | cons x rest ih =>
    intro ix score hlA hlI
    rw [List.length_cons] at hlA hlI
    have hsA : (pyGet probs.feature_value_in_actives (ix : ℤ)).isSome = true :=
      (pyGet_isSome_iff _ _).mpr ⟨by omega, by omega⟩
    have hsI : (pyGet probs.feature_value_in_inactives (ix : ℤ)).isSome = true :=
      (pyGet_isSome_iff _ _).mpr ⟨by omega, by omega⟩
    obtain ⟨rowA, hrowA⟩ := Option.isSome_iff_exists.mp hsA
    obtain ⟨rowI, hrowI⟩ := Option.isSome_iff_exists.mp hsI
    have hrowAlen : rowA.length = cnt := hA rowA (pyGet_mem hrowA)
    have hrowIlen : rowI.length = cnt := hI rowI (pyGet_mem hrowI)
    simp only [scoreLoop, hrowA, hrowI]
    by_cases hx : -(cnt : ℤ) ≤ ⌊x * (cnt : ℚ)⌋ ∧ ⌊x * (cnt : ℚ)⌋ ≤ (cnt : ℤ)
    · have hbin : -(cnt : ℤ) ≤ get_bin x cnt ∧ get_bin x cnt < (cnt : ℤ) :=
        (get_bin_range_iff x cnt hcnt).mpr hx
      have h1s : (pyGet rowA (get_bin x cnt)).isSome = true :=
        (pyGet_isSome_iff _ _).mpr (by rw [hrowAlen]; exact hbin)
      have h2s : (pyGet rowI (get_bin x cnt)).isSome = true :=
        (pyGet_isSome_iff _ _).mpr (by rw [hrowIlen]; exact hbin)
      obtain ⟨p1, hp1⟩ := Option.isSome_iff_exists.mp h1s
      obtain ⟨p2, hp2⟩ := Option.isSome_iff_exists.mp h2s
      simp only [hp1, hp2]
      rw [ih (ix + 1) (score + lg (p1 / p2)) (by omega) (by omega)]
      constructor
      · intro hrest z hz
        rcases List.mem_cons.mp hz with rfl | hz'
        · exact hx
        · exact hrest z hz'
      · intro hall z hz
        exact hall z (List.mem_cons_of_mem x hz)
    · have h1n : pyGet rowA (get_bin x cnt) = none := by
        cases hcase : pyGet rowA (get_bin x cnt) with
        | none => rfl
        | some p =>
          exfalso
          apply hx
          apply (get_bin_range_iff x cnt hcnt).mp
          have := (pyGet_isSome_iff rowA (get_bin x cnt)).mp (by rw [hcase]; rfl)
          rwa [hrowAlen] at this
      rw [h1n]
      have hmatch :
          (match (none : Option ℚ), pyGet rowI (get_bin x cnt) with
            | some p1, some p2 =>
              scoreLoop lg probs cnt (ix + 1) (score + lg (p1 / p2)) rest
            | _, _ => none) = (none : Option ℚ) := by
        cases pyGet rowI (get_bin x cnt) <;> rfl
      rw [hmatch]
      simp only [Option.isSome_none, Bool.false_eq_true, false_iff]
      intro hall
      exact hx (hall x (List.mem_cons_self x rest))

/-- Counterexample to C8: the component `-1/4` lies outside `[0,1]`, yet
`score_feature_vector` raises no error: the bin index is `-1`, Python's
negative indexing reads the last bin, and the call returns a score (`10`
with `log` abstracted as the identity). -/
theorem score_negative_component_succeeds :
    ¬ ((0 : ℚ) ≤ -(1/4) ∧ -(1/4) ≤ (1 : ℚ)) ∧
    score_feature_vector id [-(1/4)]
      ⟨[[1/2, 9/10]], [[1/2, 1/10]], 1/2, 1/2⟩ 2 = some 10 := by
  constructor
  · norm_num
  · with_unfolding_all decide

/-- Claim C8, amended: `score_feature_vector` performs no `[0,1]` validation
and raises no DomainError.  It returns a score iff every component's raw bin
index `floor(v[i] * cnt_bins)` lies in `[-cnt_bins, cnt_bins]` — Python's
negative indexing resolves bins in `[-cnt_bins, -1]` from the end of the row
and the `== cnt_bins` clamp absorbs the upper boundary — so components
outside `[0,1]` can still be scored (proved for well-formed probability
tables with rows of length `cnt_bins` and at least one row per component). -/
theorem score_isSome_iff_bins_indexable (lg : ℚ → ℚ) (v : List ℚ) (probs : Probs)
    (cnt : ℕ)
    (hA : ∀ row ∈ probs.feature_value_in_actives, row.length = cnt)
    (hI : ∀ row ∈ probs.feature_value_in_inactives, row.length = cnt)
    (hlenA : v.length ≤ probs.feature_value_in_actives.length)
    (hlenI : v.length ≤ probs.feature_value_in_inactives.length)
    (hcnt : 1 ≤ cnt) :
    (score_feature_vector lg v probs cnt).isSome = true ↔
      ∀ x ∈ v, -(cnt : ℤ) ≤ ⌊x * (cnt : ℚ)⌋ ∧ ⌊x * (cnt : ℚ)⌋ ≤ (cnt : ℤ) :=
  scoreLoop_isSome_iff lg probs cnt hA hI hcnt v 0 0 (by omega) (by omega)

/-- Witness for the amended C8 at a concrete model. -/
theorem score_isSome_iff_witness :
    (score_feature_vector id [-(1/4)]
      ⟨[[1/2, 9/10]], [[1/2, 1/10]], 1/2, 1/2⟩ 2).isSome = true :=
  (score_isSome_iff_bins_indexable id [-(1/4)]
      ⟨[[1/2, 9/10]], [[1/2, 1/10]], 1/2, 1/2⟩ 2
      (by with_unfolding_all decide) (by with_unfolding_all decide)
      (by norm_num) (by norm_num) (by norm_num)).mpr
    (by with_unfolding_all decide)

/-! ### screen.py: `screen` (lines 36-53) -/

/-- A molecule of the dataset JSON: its name and the `smiles` keys of its
fragment list, in order. -/
structure Molecule where
  name : String
  fragments : List String

/-- First-occurrence deduplication of fragment keys (the `processed_frags`
list of `screen`, lines 41-44). -/
def dedupFirst (seen : List String) : List String → List String
  | [] => []
  | s :: rest =>
    if s ∈ seen then dedupFirst seen rest
    else s :: dedupFirst (seen ++ [s]) rest

/-- Sequential evaluation that aborts at the first failure, as the Python
loop does when an exception is raised. -/
def mapOption {α β : Type} (f : α → Option β) : List α → Option (List β)
  | [] => some []
  | a :: l =>
    match f a, mapOption f l with
    | some b, some bs => some (b :: bs)
    | _, _ => none

/-- `np.mean` of a list of rationals.  The Python filter
`[x for x in fragments_scores if x is not np.nan and x is not None]`
compares object identity and keeps every computed float, so it is the
identity here (rationals are never NaN/None). -/
def npMean (l : List ℚ) : ℚ := l.sum / (l.length : ℚ)

/-- Per-molecule body of `screen`'s loop (lines 40-49): score each first
occurrence of a fragment key, and set `mol["score"]` to the mean when at
least one fragment was scored.  `none` models an exception aborting the run;
`some none` means the molecule gets no score. -/
def screenMol (lg : ℚ → ℚ) (feats : String → List ℚ) (probs : Probs)
    (cnt_bins : ℕ) (mol : Molecule) : Option (Option ℚ) :=
  match mapOption (fun s => score_feature_vector lg (feats s) probs cnt_bins)
      (dedupFirst [] (Molecule.fragments mol)) with
  | none => none
  | some scores =>
    some (if scores.length > 0 then some (npMean scores) else none)

/-- Embeds `screen` (screen.py, lines 36-53): after the scoring loop, the
result keeps one `(name, score)` record per molecule that has a score, in
input order (line 51). -/
def screen (lg : ℚ → ℚ) (mols : List Molecule) (feats : String → List ℚ)
    (probs : Probs) (cnt_bins : ℕ) : Option (List (String × ℚ)) :=
  match mapOption (screenMol lg feats probs cnt_bins) mols with
  | none => none
  | some scored =>
    some ((mols.zip scored).filterMap fun p =>
      p.2.map fun s => (Molecule.name p.1, s))

/-! ### Claim C5: molecules with no scored fragment are excluded -/

theorem dedupFirst_ne_nil (seen : List String) (s : String) (rest : List String)
    (hs : s ∉ seen) : dedupFirst seen (s :: rest) ≠ [] := by
  unfold dedupFirst
  rw [if_neg hs]
  exact List.cons_ne_nil _ _

theorem mapOption_length {α β : Type} (f : α → Option β) :
    ∀ (l : List α) (l' : List β), mapOption f l = some l' → l'.length = l.length := by
  intro l
  induction l with
  | nil =>
    intro l' h
    simp only [mapOption, Option.some.injEq] at h
    subst h
    rfl
  | cons a t ih =>
    intro l' h
    unfold mapOption at h
    cases hfa : f a with
    | none => rw [hfa] at h; cases hft : mapOption f t <;> rw [hft] at h <;> cases h
    | some b =>
      rw [hfa] at h
      cases hft : mapOption f t with
      | none => rw [hft] at h; cases h
      | some bs =>
        rw [hft] at h
        cases h
        simp [ih bs hft]


/-- A molecule with a successful `screenMol` gets a score iff it has at
least one fragment. -/
theorem screenMol_isSome (lg : ℚ → ℚ) (feats : String → List ℚ) (probs : Probs)
    (cnt_bins : ℕ) (mol : Molecule) (o : Option ℚ)
    (h : screenMol lg feats probs cnt_bins mol = some o) :
    o.isSome = !(Molecule.fragments mol).isEmpty := by
  unfold screenMol at h
  cases hf : Molecule.fragments mol with
  | nil =>
    rw [hf] at h
    replace h : some (if ([] : List ℚ).length > 0 then some (npMean []) else none) =
        some o := h
    rw [Option.some.injEq, if_neg (by simp)] at h
    subst h
    rfl
  | cons s rest =>
    rw [hf] at h
    cases hm : mapOption (fun s => score_feature_vector lg (feats s) probs cnt_bins)
        (dedupFirst [] (s :: rest)) with
    | none => rw [hm] at h; cases h
    | some scores =>
      rw [hm] at h
      replace h : some (if scores.length > 0 then some (npMean scores) else none) =
          some o := h
      have hlen := mapOption_length _ _ _ hm
      have hne : dedupFirst [] (s :: rest) ≠ [] :=
        dedupFirst_ne_nil [] s rest (by simp)
      have hpos : scores.length > 0 := by
        rw [hlen]
        cases hd : dedupFirst [] (s :: rest) with
        | nil => exact absurd hd hne
        | cons a b => simp
      rw [Option.some.injEq, if_pos hpos] at h
      subst h
      rfl

theorem screen_cons (lg : ℚ → ℚ) (m : Molecule) (rest : List Molecule)
    (feats : String → List ℚ) (probs : Probs) (cnt_bins : ℕ) :
    screen lg (m :: rest) feats probs cnt_bins =
      match screenMol lg feats probs cnt_bins m, screen lg rest feats probs cnt_bins with
      | some o, some res' =>
        some ((o.map fun s => (Molecule.name m, s)).toList ++ res')
      | _, _ => none := by
  unfold screen
  cases hm : screenMol lg feats probs cnt_bins m with
  | none =>
    have h1 : mapOption (screenMol lg feats probs cnt_bins) (m :: rest) = none := by
      unfold mapOption
      rw [hm]
    rw [h1]
  | some o =>
    cases hr : mapOption (screenMol lg feats probs cnt_bins) rest with
    | none =>
      have h1 : mapOption (screenMol lg feats probs cnt_bins) (m :: rest) = none := by
        unfold mapOption
        rw [hm, hr]
      rw [h1]
    | some scored' =>
      have h1 : mapOption (screenMol lg feats probs cnt_bins) (m :: rest) =
          some (o :: scored') := by
        unfold mapOption
        rw [hm, hr]
      rw [h1]
      simp only [List.zip_cons_cons, List.filterMap_cons]
      cases o <;> rfl

/-- Claim C5: when `screen` completes, its output names are exactly the
molecules with at least one (scored) fragment, in input order — a molecule
none of whose fragments yields a score is absent (no placeholder), and every
molecule with a scored fragment appears. -/
theorem screen_output_names (lg : ℚ → ℚ) (mols : List Molecule)
    (feats : String → List ℚ) (probs : Probs) (cnt_bins : ℕ)
    (res : List (String × ℚ))
    (h : screen lg mols feats probs cnt_bins = some res) :
    res.map Prod.fst =
      (mols.filter fun mol => !(Molecule.fragments mol).isEmpty).map Molecule.name := by
  induction mols generalizing res with
  | nil =>
    replace h : some ((List.zip ([] : List Molecule) ([] : List (Option ℚ))).filterMap
        fun p => p.2.map fun s => (Molecule.name p.1, s)) = some res := h
    rw [Option.some.injEq] at h
    subst h
    rfl
  | cons m rest ih =>
    rw [screen_cons] at h
    cases hm : screenMol lg feats probs cnt_bins m with
    | none =>
      rw [hm] at h
      cases hr : screen lg rest feats probs cnt_bins <;> rw [hr] at h <;> simp at h
    | some o =>
      rw [hm] at h
      cases hr : screen lg rest feats probs cnt_bins with
      | none => rw [hr] at h; simp at h
      | some res' =>
        rw [hr] at h
        replace h : some ((o.map fun s => (Molecule.name m, s)).toList ++ res') =
            some res := h
        rw [Option.some.injEq] at h
        subst h
        have hfrag := screenMol_isSome lg feats probs cnt_bins m o hm
        cases o with
        | none =>
          have hempty : (Molecule.fragments m).isEmpty = true := by
            simpa using hfrag.symm
          simp only [Option.map_none', Option.toList_none, List.nil_append]
          rw [List.filter_cons, if_neg (by simp [hempty])]
          exact ih res' hr
        | some s =>
          have hne : (Molecule.fragments m).isEmpty = false := by
            simpa using hfrag.symm
          simp only [Option.map_some', Option.toList_some, List.singleton_append,
            List.map_cons]
          rw [List.filter_cons, if_pos (by simp [hne]), List.map_cons]
          rw [ih res' hr]

/-- Witness for C5: a molecule with one (duplicated) fragment appears, a
fragmentless molecule is absent. -/
theorem screen_output_names_witness :
    ([(("m1" : String), (10 : ℚ))].map Prod.fst) =
      (([⟨"m1", ["f", "f"]⟩, ⟨"m2", []⟩] : List Molecule).filter
        fun mol => !(Molecule.fragments mol).isEmpty).map Molecule.name :=
  screen_output_names id [⟨"m1", ["f", "f"]⟩, ⟨"m2", []⟩] (fun _ => [1/2])
    ⟨[[1/2, 9/10]], [[1/2, 1/10]], 1/2, 1/2⟩ 2 [("m1", 10)]
    (by with_unfolding_all decide)

/-! ### screen.py: `get_normalized_features` (lines 56-106) -/

/-- Numpy elementwise division: division by zero produces the non-numeric
NaN/inf (with only a runtime warning, no exception) — modelled as `none`. -/
def npDiv (a b : ℚ) : Option ℚ := if b = 0 then none else some (a / b)

/-- Numpy `clip(x, lo, hi) = minimum(hi, maximum(x, lo))` (line 86). -/
def npClip (x lo hi : ℚ) : ℚ := pymin hi (pymax x lo)

/-- The fields of the model used by `get_normalized_features`:
`model["features_names"]` and `model["normalization"]`. -/
structure NormModel where
  features_names : List String
  mins : List ℚ
  maxs : List ℚ
  imputation_values : List ℚ

/-- State of the CSV reading loop (lines 58-72): `ixs_uncorr_features`,
`features` (list of selected columns, as raw strings) and `fragments`. -/
structure ScanState where
  ixs : List ℕ
  cols : List (List String)
  fragments : List String

/-- One iteration of the CSV loop (lines 62-72): empty rows are skipped;
while `ixs_uncorr_features` is empty the row is scanned as a header, keeping
the indices (in row order) of the columns whose name is in `feature_names`;
afterwards each row contributes `row[0]` to `fragments` and
`row[ixs_uncorr_features[ix]]` to column `ix`.  A short row would raise an
IndexError in Python; `getD ""` stands in for cells that the claims'
hypotheses guarantee exist. -/
def scanRow (feature_names : List String) (st : ScanState) (row : List String) :
    ScanState :=
  if row.isEmpty then st
  else if st.ixs.isEmpty then
    { ixs := (List.range row.length).filter fun ix => (row.getD ix "") ∈ feature_names,
      cols := ((List.range row.length).filter fun ix =>
        (row.getD ix "") ∈ feature_names).map fun _ => [],
      fragments := st.fragments }
  else
    { ixs := st.ixs,
      cols := (st.cols.zip st.ixs).map fun p => p.1 ++ [row.getD p.2 ""],
      fragments := st.fragments ++ [row.headD ""] }

def scanRows (feature_names : List String) (rows : List (List String)) : ScanState :=
  rows.foldl (scanRow feature_names) ⟨[], [], []⟩

/-- Per-column processing of lines 74-92, for the column at position `ix` of
the selected-column list: `common.to_float` parsing (abstracted as the
`toFloat` parameter, `none` = NaN), imputation with `imputation_values[ix]`,
clipping with `mins[ix]`/`maxs[ix]` (the loop clips only `ix` below
`len(mins)`), then min-max scaling.  Out-of-range parameter indices would
raise in Python; the claims' hypotheses keep them in range. -/
def normalizeCol (toFloat : String → Option ℚ) (m : NormModel) (ix : ℕ)
    (col : List String) : List (Option ℚ) :=
  let imputed := (col.map toFloat).map fun v =>
    v.getD ((NormModel.imputation_values m).getD ix 0)
  let clipped := if ix < (NormModel.mins m).length then
      imputed.map fun x =>
        npClip x ((NormModel.mins m).getD ix 0) ((NormModel.maxs m).getD ix 0)
    else imputed
  clipped.map fun x =>
    npDiv (x - (NormModel.mins m).getD ix 0)
      ((NormModel.maxs m).getD ix 0 - (NormModel.mins m).getD ix 0)

/-- All selected columns processed positionally (`for ix in range(...)`). -/
def normalizeCols (toFloat : String → Option ℚ) (m : NormModel)
    (cols : List (List String)) : List (List (Option ℚ)) :=
  (List.range cols.length).map fun ix => normalizeCol toFloat m ix (cols.getD ix [])

/-- Embeds `get_normalized_features` (screen.py, lines 56-106): scan the CSV,
normalize the selected columns positionally, then emit
`fragments_features[fragments[ix]] = feature_matrix[ix]` — one record per
data row, the vector in selected-column order. -/
def get_normalized_features (toFloat : String → Option ℚ)
    (rows : List (List String)) (m : NormModel) :
    List (String × List (Option ℚ)) :=
  (scanRows (NormModel.features_names m) rows).fragments.enum.map fun p =>
    (p.2,
      (normalizeCols toFloat m (scanRows (NormModel.features_names m) rows).cols).map
        fun col => col.getD p.1 none)

/-! ### Claim C9: degenerate feature (maxs[i] == mins[i]) -/

/-- Counterexample to C9: a model with `mins = maxs = [2]` is processed
without any guard and without a DomainError; `get_normalized_features`
completes normally and the degenerate feature's component is numpy's silent
NaN (`none`), 0/0 from the min-max scaling. -/
theorem normalization_degenerate_silent_nan :
    get_normalized_features (fun s => if s = "7" then some 7 else none)
      [["Name", "A"], ["f1", "7"]] ⟨["A"], [2], [2], [5]⟩ =
      [("f1", [none])] := by
  with_unfolding_all decide


theorem get?_range_map {β : Type} (f : ℕ → β) (n k : ℕ) (b : β)
    (h : ((List.range n).map f).get? k = some b) : k < n ∧ b = f k := by
  rw [List.get?_map] at h
  have hkn : k < n := by
    by_contra hk
    rw [List.get?_eq_none.mpr (by simpa [List.length_range] using hk)] at h
    cases h
  rw [List.get?_range hkn] at h
  simp only [Option.map_some'] at h
  exact ⟨hkn, ((Option.some.injEq _ _).mp h).symm⟩

/-- Claim C9, amended: there is no explicit `maxs[i] == mins[i]` guard and no
DomainError: normalization always completes, and whenever
`maxs[k] = mins[k]` the `k`-th component of every emitted feature vector is
the non-numeric NaN (`none`) silently produced by numpy's division by zero. -/
theorem normalization_degenerate_component_none (toFloat : String → Option ℚ)
    (rows : List (List String)) (m : NormModel) (k : ℕ)
    (hdeg : (NormModel.maxs m).getD k 0 = (NormModel.mins m).getD k 0) :
    ∀ e ∈ get_normalized_features toFloat rows m, e.2.getD k none = none := by
  intro e he
  unfold get_normalized_features at he
  obtain ⟨p, _, rfl⟩ := List.mem_map.mp he
  rw [List.getD_eq_get?, List.get?_map]
  cases hc : (normalizeCols toFloat m
      (scanRows (NormModel.features_names m) rows).cols).get? k with
  | none => rfl
  | some col =>
    unfold normalizeCols at hc
    obtain ⟨hkn, hcol⟩ := get?_range_map _ _ _ _ hc
    subst hcol
    show (some ((normalizeCol toFloat m k
      ((scanRows (NormModel.features_names m) rows).cols.getD k [])).getD p.1 none)).getD
        none = none
    rw [Option.getD_some, List.getD_eq_get?]
    cases hv : (normalizeCol toFloat m k
        ((scanRows (NormModel.features_names m) rows).cols.getD k [])).get? p.1 with
    | none => rfl
    | some v =>
      have hvmem := List.get?_mem hv
      simp only [normalizeCol] at hvmem
      obtain ⟨x, _, rfl⟩ := List.mem_map.mp hvmem
      show (some (npDiv (x - (NormModel.mins m).getD k 0)
          ((NormModel.maxs m).getD k 0 - (NormModel.mins m).getD k 0))).getD none = none
      rw [Option.getD_some]
      unfold npDiv
      rw [if_pos (by rw [hdeg]; ring)]

/-- Witness for the amended C9 at the concrete degenerate model. -/
theorem normalization_degenerate_witness :
    ((("f1" : String), ([none] : List (Option ℚ))) : String × List (Option ℚ)).2.getD
      0 none = none :=
  normalization_degenerate_component_none (fun s => if s = "7" then some 7 else none)
    [["Name", "A"], ["f1", "7"]] ⟨["A"], [2], [2], [5]⟩ 0 (by with_unfolding_all decide)
    ("f1", [none]) (by with_unfolding_all decide)

/-! ### Claim C3: column selection versus positional parameter application -/

/-- Spec-side reference (§4.2 of the spec, stated in its words): per feature
index `k` in the model's fixed feature order, the raw value is read from the
column bearing `features_names[k]` (name match against the header), imputed
with `imputation_values[k]`, clipped into `[mins[k], maxs[k]]` and min-max
scaled with feature `k`'s parameters. -/
def specNormalizedFeatures (toFloat : String → Option ℚ) (header : List String)
    (dataRows : List (List String)) (m : NormModel) :
    List (String × List (Option ℚ)) :=
  dataRows.map fun row =>
    (row.headD "",
      (List.range (NormModel.features_names m).length).map fun k =>
        npDiv
          (npClip
              ((toFloat (row.getD
                  (header.indexOf ((NormModel.features_names m).getD k "")) "")).getD
                ((NormModel.imputation_values m).getD k 0))
              ((NormModel.mins m).getD k 0) ((NormModel.maxs m).getD k 0)
            - (NormModel.mins m).getD k 0)
          ((NormModel.maxs m).getD k 0 - (NormModel.mins m).getD k 0))

/-- Counterexample to C3: a table whose columns appear in the order
`Name, B, A` while the model's feature order is `A, B`.  The code selects the
columns by name but applies the normalization parameters positionally, so
feature `A`'s parameters are applied to column `B` and vice versa; the
produced vectors differ from the by-name application the claim describes. -/
theorem get_normalized_features_misaligned_columns :
    get_normalized_features
        (fun s => if s = "5" then some 5 else if s = "0.5" then some (1/2) else none)
        [["Name", "B", "A"], ["frag", "0.5", "5"]]
        ⟨["A", "B"], [0, 0], [10, 1], [5, 1/2]⟩ =
      [("frag", [some (1/20), some 1])] ∧
    specNormalizedFeatures
        (fun s => if s = "5" then some 5 else if s = "0.5" then some (1/2) else none)
        ["Name", "B", "A"] [["frag", "0.5", "5"]]
        ⟨["A", "B"], [0, 0], [10, 1], [5, 1/2]⟩ =
      [("frag", [some (1/2), some (1/2)])] ∧
    ([some ((1 : ℚ)/20), some 1] : List (Option ℚ)) ≠ [some (1/2), some (1/2)] := by
  refine ⟨by with_unfolding_all decide, by with_unfolding_all decide,
    by with_unfolding_all decide⟩

theorem zip_self_pairs {α : Type} : ∀ (l : List α), l.zip l = l.map fun a => (a, a)
  | [] => rfl
  | a :: t => by simp [List.zip_cons_cons, zip_self_pairs t]

theorem zip_snd_pairs {α β : Type} :
    ∀ (l : List α) (s : List β), l.length = s.length →
      (l.zip s).zip s = (l.zip s).map fun p => (p, p.2) := by
  intro l
  induction l with
  | nil =>
    intro s h
    cases s with
    | nil => rfl
    | cons b t => cases h
  | cons a t ih =>
    intro s h
    cases s with
    | nil => cases h
    | cons b u =>
      simp only [List.zip_cons_cons, List.map_cons]
      rw [ih u (by simpa using h)]

theorem indexOf_eq_of (a : String) :
    ∀ (l : List String) (n : ℕ), l.get? n = some a →
      (∀ j < n, l.get? j ≠ some a) → l.indexOf a = n := by
  intro l
  induction l with
  | nil => intro n hn _; rw [List.get?_eq_none.mpr (by simp)] at hn; cases hn
  | cons b t ih =>
    intro n hn hmin
    cases n with
    | zero =>
      have hb : b = a := by simpa using hn
      subst hb
      simp [List.indexOf_cons_self]
    | succ m =>
      have hb : b ≠ a := by
        intro hba
        exact hmin 0 (Nat.succ_pos m) (by simpa using congrArg some hba)
      rw [List.indexOf_cons_ne _ hb]
      rw [ih m (by simpa using hn) fun j hj => by
        simpa using hmin (j + 1) (Nat.succ_lt_succ hj)]

/-- The selected column indices of the header scan (line 64-68 of screen.py),
in table order. -/
def selIxs (feature_names header : List String) : List ℕ :=
  (List.range header.length).filter fun ix => (header.getD ix "") ∈ feature_names

theorem selIxs_pairwise_lt (fn header : List String) :
    List.Pairwise (fun a b => a < b) (selIxs fn header) :=
  (List.pairwise_lt_range _).filter _

/-- When the selected columns carry the feature names in model order (and the
names are duplicate-free), the `k`-th selected index is exactly the first
column bearing `features_names[k]`. -/
theorem selIxs_indexOf (fn header : List String) (hnodup : fn.Nodup)
    (hOrder : (selIxs fn header).map (fun ix => header.getD ix "") = fn)
    (k : ℕ) (hk : k < fn.length) :
    header.indexOf (fn.getD k "") = (selIxs fn header).getD k 0 ∧
    (selIxs fn header).getD k 0 < header.length := by
  have hlen : (selIxs fn header).length = fn.length := by
    conv_rhs => rw [← hOrder]
    rw [List.length_map]
  have hksel : k < (selIxs fn header).length := by omega
  have hget : (selIxs fn header).get? k = some ((selIxs fn header).getD k 0) := by
    rw [List.getD_eq_get?, List.get?_eq_get hksel]
    rfl
  set ixk := (selIxs fn header).getD k 0 with hixk
  have hmemsel : ixk ∈ selIxs fn header := List.get?_mem hget
  have hfilter := List.mem_filter.mp hmemsel
  have hixlt : ixk < header.length := List.mem_range.mp hfilter.1
  have hval : header.getD ixk "" = fn.getD k "" := by
    have h1 : ((selIxs fn header).map fun ix => header.getD ix "").get? k =
        some (header.getD ixk "") := by
      rw [List.get?_map, hget]
      rfl
    rw [hOrder] at h1
    have h2 : fn.get? k = some (fn.getD k "") := by
      rw [List.getD_eq_get?, List.get?_eq_get hk]
      rfl
    rw [h1] at h2
    exact (Option.some.injEq _ _).mp h2
  refine ⟨?_, hixlt⟩
  apply indexOf_eq_of
  · rw [List.get?_eq_get hixlt]
    rw [← hval]
    rw [List.getD_eq_get?, List.get?_eq_get hixlt]
    rfl
  · intro j hj hcontra
    have hjlt : j < header.length := by omega
    have hjval : header.getD j "" = fn.getD k "" := by
      rw [List.getD_eq_get?, List.get?_eq_get hjlt]
      rw [List.get?_eq_get hjlt] at hcontra
      simpa using hcontra
    have hjmem : j ∈ selIxs fn header := by
      apply List.mem_filter.mpr
      refine ⟨List.mem_range.mpr hjlt, ?_⟩
      rw [hjval]
      simp only [decide_eq_true_eq]
      rw [List.getD_eq_get?, List.get?_eq_get hk]
      exact List.get_mem fn k hk
    obtain ⟨kf, hkf⟩ := List.mem_iff_get.mp hjmem
    have hsorted : List.Sorted (fun a b => a < b) (selIxs fn header) :=
      selIxs_pairwise_lt fn header
    have hmono := List.Sorted.get_strictMono hsorted
    have hkk : (kf : ℕ) < k := by
      have hlt : (selIxs fn header).get kf < (selIxs fn header).get ⟨k, hksel⟩ := by
        rw [hkf]
        have : (selIxs fn header).get ⟨k, hksel⟩ = ixk := by
          have := hget
          rw [List.get?_eq_get hksel] at this
          exact (Option.some.injEq _ _).mp this
        rw [this]
        exact hj
      have := hmono.lt_iff_lt.mp hlt
      exact this
    have hkflen : (kf : ℕ) < fn.length := by
      have := kf.isLt
      omega
    have hfnkf : fn.get? (kf : ℕ) = some (fn.getD k "") := by
      have h1 : ((selIxs fn header).map fun ix => header.getD ix "").get? (kf : ℕ) =
          some (header.getD j "") := by
        rw [List.get?_map, List.get?_eq_get kf.isLt]
        rw [hkf]
        rfl
      rw [hOrder] at h1
      rw [h1, hjval]
    have hfnk : fn.get? k = some (fn.getD k "") := by
      rw [List.getD_eq_get?, List.get?_eq_get hk]
      rfl
    have : (kf : ℕ) = k := by
      have e1 : fn.get ⟨(kf : ℕ), hkflen⟩ = fn.getD k "" := by
        rw [List.get?_eq_get hkflen] at hfnkf
        exact (Option.some.injEq _ _).mp hfnkf
      have e2 : fn.get ⟨k, hk⟩ = fn.getD k "" := by
        rw [List.get?_eq_get hk] at hfnk
        exact (Option.some.injEq _ _).mp hfnk
      have := (List.Nodup.get_inj_iff hnodup).mp (e1.trans e2.symm)
      exact congrArg Fin.val this
    omega

theorem scan_header (fn header : List String) (hheader : header ≠ []) :
    scanRow fn ⟨[], [], []⟩ header =
      ⟨selIxs fn header, (selIxs fn header).map fun _ => [], []⟩ := by
  unfold scanRow selIxs
  rw [if_neg (by simpa [List.isEmpty_iff] using hheader)]
  rfl

theorem scan_data (fn : List String) (sel : List ℕ) (hsel : sel ≠ []) :
    ∀ (dataRows : List (List String)) (cols : List (List String)) (frags : List String),
      cols.length = sel.length →
      (∀ r ∈ dataRows, r ≠ []) →
      List.foldl (scanRow fn) ⟨sel, cols, frags⟩ dataRows =
        ⟨sel,
          (cols.zip sel).map fun p => p.1 ++ dataRows.map fun r => r.getD p.2 "",
          frags ++ dataRows.map fun r => r.headD ""⟩ := by
  intro dataRows
  induction dataRows with
  | nil =>
    intro cols frags hlen _
    simp only [List.foldl_nil, List.map_nil, List.append_nil]
    congr 1
    exact ((List.map_fst_zip cols sel (le_of_eq hlen)).symm : cols = _)
  | cons r rest ih =>
    intro cols frags hlen hne
    rw [List.foldl_cons]
    have hr : r ≠ [] := hne r (List.mem_cons_self r rest)
    have hstep : scanRow fn ⟨sel, cols, frags⟩ r =
        ⟨sel, (cols.zip sel).map fun p => p.1 ++ [r.getD p.2 ""],
          frags ++ [r.headD ""]⟩ := by
      unfold scanRow
      rw [if_neg (by simpa [List.isEmpty_iff] using hr)]
      rw [if_neg (by simpa [List.isEmpty_iff] using hsel)]
    rw [hstep]
    have hZlen : (cols.zip sel).length = sel.length := by
      rw [List.length_zip, hlen, Nat.min_self]
    rw [ih _ _ (by rw [List.length_map, hZlen])
      (fun r' hr' => hne r' (List.mem_cons_of_mem r hr'))]
    have hcols :
        ((((cols.zip sel).map fun p => p.1 ++ [r.getD p.2 ""]).zip sel).map
            fun p => p.1 ++ rest.map fun rr => rr.getD p.2 "") =
          (cols.zip sel).map fun p =>
            p.1 ++ (r :: rest).map fun rr => rr.getD p.2 "" := by
      rw [List.zip_map_left, zip_snd_pairs cols sel hlen,
        List.map_map, List.map_map]
      apply List.map_congr_left
      intro p _
      simp [Function.comp, List.append_assoc]
    have hfrags :
        (frags ++ [r.headD ""]) ++ rest.map (fun rr => rr.headD "") =
          frags ++ (r :: rest).map fun rr => rr.headD "" := by
      simp [List.append_assoc]
    rw [hcols, hfrags]

theorem scanRows_closed (fn header : List String) (dataRows : List (List String))
    (hheader : header ≠ []) (hsel : selIxs fn header ≠ [])
    (hne : ∀ r ∈ dataRows, r ≠ []) :
    scanRows fn (header :: dataRows) =
      ⟨selIxs fn header,
        (selIxs fn header).map fun i => dataRows.map fun r => r.getD i "",
        dataRows.map fun r => r.headD ""⟩ := by
  unfold scanRows
  rw [List.foldl_cons, scan_header fn header hheader]
  rw [scan_data fn (selIxs fn header) hsel dataRows _ _ (by rw [List.length_map]) hne]
  have hcols :
      ((((selIxs fn header).map fun _ => ([] : List String)).zip (selIxs fn header)).map
          fun p => p.1 ++ dataRows.map fun r => r.getD p.2 "") =
        (selIxs fn header).map fun i => dataRows.map fun r => r.getD i "" := by
    rw [List.zip_map_left, zip_self_pairs (selIxs fn header), List.map_map, List.map_map]
    apply List.map_congr_left
    intro i _
    simp [Function.comp]
  rw [hcols]
  simp

theorem enumFrom_get? {α : Type} :
    ∀ (l : List α) (n i : ℕ),
      (List.enumFrom n l).get? i = (l.get? i).map fun a => (n + i, a) := by
  intro l
  induction l with
  | nil => intro n i; rfl
  | cons a t ih =>
    intro n i
    cases i with
    | zero => simp [List.enumFrom]
    | succ j =>
      show (List.enumFrom (n + 1) t).get? j = (t.get? j).map fun a => (n + (j + 1), a)
      rw [ih (n + 1) j]
      have : n + 1 + j = n + (j + 1) := by omega
      rw [this]

theorem enum_get? {α : Type} (l : List α) (i : ℕ) :
    l.enum.get? i = (l.get? i).map fun a => (i, a) := by
  show (List.enumFrom 0 l).get? i = (l.get? i).map fun a => (i, a)
  rw [enumFrom_get?]
  simp

theorem map_getD_of_get? {α β : Type} (f : α → β) (l : List α) (i : ℕ) (a : α)
    (h : l.get? i = some a) (d : β) : (l.map f).getD i d = f a := by
  rw [List.getD_eq_get?, List.get?_map, h]
  rfl

/-- Closed form of `normalizeCol` when the clip branch is taken. -/
theorem normalizeCol_eq_map (toFloat : String → Option ℚ) (m : NormModel) (k : ℕ)
    (col : List String) (hk : k < (NormModel.mins m).length) :
    normalizeCol toFloat m k col = col.map fun s =>
      npDiv
        (npClip ((toFloat s).getD ((NormModel.imputation_values m).getD k 0))
            ((NormModel.mins m).getD k 0) ((NormModel.maxs m).getD k 0)
          - (NormModel.mins m).getD k 0)
        ((NormModel.maxs m).getD k 0 - (NormModel.mins m).getD k 0) := by
  simp only [normalizeCol]
  rw [if_pos hk]
  rw [List.map_map, List.map_map, List.map_map]
  rfl

/-- Claim C3, amended: the code selects columns by name membership but keeps
them in the table's order and applies `imputation_values`, `mins` and `maxs`
positionally.  The by-name normalization the claim describes is obtained
exactly when the matching columns appear in the model's feature order: under
that alignment (with duplicate-free feature names, nonempty rows and
parameter arrays covering every feature) the code's output coincides with the
spec's by-name reference `specNormalizedFeatures`. -/
theorem get_normalized_features_eq_spec_of_aligned
    (toFloat : String → Option ℚ) (header : List String)
    (dataRows : List (List String)) (m : NormModel)
    (hheader : header ≠ [])
    (hne : ∀ r ∈ dataRows, r ≠ [])
    (hOrder : (selIxs (NormModel.features_names m) header).map
        (fun ix => header.getD ix "") = NormModel.features_names m)
    (hfn : NormModel.features_names m ≠ [])
    (hnodup : (NormModel.features_names m).Nodup)
    (hmins : (NormModel.features_names m).length ≤ (NormModel.mins m).length) :
    get_normalized_features toFloat (header :: dataRows) m =
      specNormalizedFeatures toFloat header dataRows m := by
  have hlen : (selIxs (NormModel.features_names m) header).length =
      (NormModel.features_names m).length := by
    conv_rhs => rw [← hOrder]
    rw [List.length_map]
  have hsel : selIxs (NormModel.features_names m) header ≠ [] := by
    intro h0
    apply hfn
    rw [← hOrder, h0]
    rfl
  unfold get_normalized_features
  rw [scanRows_closed (NormModel.features_names m) header dataRows hheader hsel hne]
  apply List.ext
  intro i
  rw [List.get?_map]
  unfold specNormalizedFeatures
  rw [List.get?_map]
  rw [enum_get?, List.get?_map]
  cases hrow : dataRows.get? i with
  | none => rfl
  | some row =>
    simp only [Option.map_some']
    rw [Option.some.injEq]
    refine Prod.ext rfl ?_
    show ((normalizeCols toFloat m ((selIxs (NormModel.features_names m) header).map
        fun ix => dataRows.map fun r => r.getD ix "")).map
          fun col => col.getD i none) = _
    unfold normalizeCols
    rw [List.map_map, List.length_map, hlen]
    apply List.map_congr_left
    intro k hkmem
    have hk : k < (NormModel.features_names m).length := List.mem_range.mp hkmem
    have hksel : k < (selIxs (NormModel.features_names m) header).length := by omega
    have hcolk : ((selIxs (NormModel.features_names m) header).map
        fun ix => dataRows.map fun r => r.getD ix "").getD k [] =
          dataRows.map fun r =>
            r.getD ((selIxs (NormModel.features_names m) header).getD k 0) "" := by
      apply map_getD_of_get?
      rw [List.getD_eq_get?, List.get?_eq_get hksel]
      rfl
    show (normalizeCol toFloat m k (((selIxs (NormModel.features_names m) header).map
        fun ix => dataRows.map fun r => r.getD ix "").getD k [])).getD i none = _
    rw [hcolk, normalizeCol_eq_map toFloat m k _ (by omega)]
    rw [List.map_map]
    have hcell := map_getD_of_get?
      ((fun s => npDiv
          (npClip ((toFloat s).getD ((NormModel.imputation_values m).getD k 0))
              ((NormModel.mins m).getD k 0) ((NormModel.maxs m).getD k 0)
            - (NormModel.mins m).getD k 0)
          ((NormModel.maxs m).getD k 0 - (NormModel.mins m).getD k 0)) ∘
        (fun r : List String =>
          r.getD ((selIxs (NormModel.features_names m) header).getD k 0) ""))
      dataRows i row hrow none
    rw [hcell]
    obtain ⟨hidx, _⟩ := selIxs_indexOf (NormModel.features_names m) header hnodup hOrder k hk
    rw [hidx]
    rfl

/-- Witness for the amended C3: with the table's matching columns in feature
order, the code's output equals the by-name specification. -/
theorem get_normalized_features_aligned_witness :
    get_normalized_features
        (fun s => if s = "5" then some 5 else if s = "0.5" then some (1/2) else none)
        [["Name", "A", "B"], ["frag", "5", "0.5"]]
        ⟨["A", "B"], [0, 0], [10, 1], [5, 1/2]⟩ =
      specNormalizedFeatures
        (fun s => if s = "5" then some 5 else if s = "0.5" then some (1/2) else none)
        ["Name", "A", "B"] [["frag", "5", "0.5"]]
        ⟨["A", "B"], [0, 0], [10, 1], [5, 1/2]⟩ :=
  get_normalized_features_eq_spec_of_aligned
    (fun s => if s = "5" then some 5 else if s = "0.5" then some (1/2) else none)
    ["Name", "A", "B"] [["frag", "5", "0.5"]]
    ⟨["A", "B"], [0, 0], [10, 1], [5, 1/2]⟩
    (by with_unfolding_all decide) (by with_unfolding_all decide)
    (by with_unfolding_all decide) (by with_unfolding_all decide)
    (by with_unfolding_all decide) (by with_unfolding_all decide)
